import Mathlib

/-!
Shallow embedding of `tulip/transys/automata.py`: the automaton taxonomy,
the Rabin acceptance-pair bookkeeping (`RabinPairs`), and the synchronous
product engine `_ts_ba_sync_prod` of a finite transition system (TS) with a
Buchi automaton (BA), together with theorems settling the specification's
claims against this embedding.

State, atomic-proposition and action identifiers are modelled as strings.
Python sets are modelled as duplicate-free lists grown with `insertUniq`;
Python exceptions are modelled by the inductive type `AutomataError`, whose
constructors carry the data that the code interpolates into each exception
message.  The external labeled-graph substrate (`labeled_graphs`, `mathset`,
`transys.FiniteTransitionSystem`) is not part of the repository sources;
the few operations the core consumes from it are modelled from the spec and
marked `Modelled from the spec:` below.
-/

/-- Insert an element into a list viewed as a set (no duplicates added). -/
def insertUniq {α : Type} [DecidableEq α] (x : α) (l : List α) : List α :=
  if x ∈ l then l else l ++ [x]

theorem mem_insertUniq {α : Type} [DecidableEq α] (x y : α) (l : List α) :
    x ∈ insertUniq y l ↔ x = y ∨ x ∈ l := by
  by_cases hy : y ∈ l
  · simp only [insertUniq, if_pos hy]
    exact ⟨fun h => Or.inr h, fun h => h.elim (fun e => e ▸ hy) id⟩
  · simp only [insertUniq, if_neg hy, List.mem_append, List.mem_singleton]
    exact or_comm

/-- Boolean equality of two lists viewed as finite sets. -/
def seteqStr (a b : List String) : Bool :=
  a.all (fun x => decide (x ∈ b)) && b.all (fun x => decide (x ∈ a))

theorem seteqStr_iff (a b : List String) :
    seteqStr a b = true ↔ ∀ x, x ∈ a ↔ x ∈ b := by
  simp only [seteqStr, Bool.and_eq_true, List.all_eq_true, decide_eq_true_eq]
  constructor
  · rintro ⟨h1, h2⟩ x
    exact ⟨fun hx => h1 x hx, fun hx => h2 x hx⟩
  · intro h
    exact ⟨fun x hx => (h x).mp hx, fun x hx => (h x).mpr hx⟩

/-- Python exceptions raised by the embedded code.  Each constructor records
the exception site and the data interpolated into the exception message.
`outOfFuel` is an artifact of the fuel-bounded modelling of the reachability
loop (the Python loop always terminates, since the product space is finite);
the top-level entry point supplies fuel exceeding the number of loop
iterations possible on its input. -/
inductive AutomataError where
  /-- `TypeError` at automata.py:472-475: first operand is not a
  `transys.FiniteTransitionSystem`; carries the actual type's name. -/
  | typeMismatchTS (actual : String)
  /-- `TypeError` at automata.py:477-480: second operand is not a
  `BuchiAutomaton`; carries the actual type's name. -/
  | typeMismatchBA (actual : String)
  /-- `Exception` at automata.py:482-486: the Buchi automaton is not
  atomic-proposition based. -/
  | typeMismatchNotAPBased
  /-- `Exception` at automata.py:563-567: a reachable TS state has no AP
  label; carries the offending state named in the message. -/
  | missingLabel (state : String)
  /-- `IndexError` from `state_label_dict[0]` in `convert_ts2ba_label`
  (automata.py:465); the Python message is `list index out of range` and
  names no state. -/
  | indexError
  /-- Raised by the `SubSet` set algebra when an element outside the bound
  state universe is inserted; carries the offending element. -/
  | invalidState (element : String)
  /-- `ValueError` from `list.remove` (automata.py:752): no pair with the
  given good/bad values exists. -/
  | pairNotFound
  /-- `Exception` at automata.py:758-760, re-raising the `IndexError` from
  `self._pairs[pair_index]`. -/
  | indexRangeError
  /-- Modelling artifact: fuel for the reachability loop ran out. -/
  | outOfFuel
  deriving DecidableEq, Repr

/-- Shared structural substrate of `FiniteStateAutomaton` as used by the
finite-word classes `NFA` / `DFA` (automata.py:47-190): states, initial and
accepting subsets, labeled transitions, the determinism flag stored on the
transition container, the AP-based-alphabet flag, and the flavor tag string
`automaton_type`. -/
structure FiniteAutomaton where
  name : String
  states : List String
  initial : List String
  accepting : List String
  transitions : List (String × String × List String)
  deterministic : Bool
  atomic_proposition_based : Bool
  automaton_type : String
  deriving DecidableEq, Repr

/-- `dfa2nfa` (automata.py:197-203): copy the DFA, clear the determinism
flag on the copy's transition container, and set the flavor tag.  The
Python code operates on `dfa.copy()`, an independent deep copy, so the
input object is never mutated; the embedding is a pure function. -/
def dfa2nfa (dfa : FiniteAutomaton) : FiniteAutomaton :=
  { dfa with
      deterministic := false,
      automaton_type := "Non-Deterministic Finite Automaton" }

/-- C6: `dfa2nfa` returns a copy in which states, transitions, initial and
accepting sets (and the name and alphabet mode) are identical to the
input's, and only the determinism flag (cleared) and the flavor tag
(changed to the NFA tag) differ; it is a total (cannot-fail) pure function,
so the input automaton is unchanged. -/
theorem dfa2nfa_copies_all_but_flags (dfa : FiniteAutomaton) :
    (dfa2nfa dfa).states = dfa.states ∧
    (dfa2nfa dfa).transitions = dfa.transitions ∧
    (dfa2nfa dfa).initial = dfa.initial ∧
    (dfa2nfa dfa).accepting = dfa.accepting ∧
    (dfa2nfa dfa).name = dfa.name ∧
    (dfa2nfa dfa).atomic_proposition_based = dfa.atomic_proposition_based ∧
    (dfa2nfa dfa).deterministic = false ∧
    (dfa2nfa dfa).automaton_type = "Non-Deterministic Finite Automaton" :=
  ⟨rfl, rfl, rfl, rfl, rfl, rfl, rfl, rfl⟩

/-- Finite transition system operand of the product, as consumed through the
interface described in the spec: states with a partial AP labelling
(`labels`; a state missing from this association list carries no AP label),
initial states, action names, and edges with an optional action sublabel
(`none` models an unlabeled edge). -/
structure FiniteTransitionSystem where
  name : String
  states : List String
  initial : List String
  actions : List String
  labels : List (String × List String)
  edges : List (String × String × Option String)
  deriving DecidableEq, Repr

/-- Lookup in the AP-labelling association list. -/
def lookupLabel (s : String) : List (String × List String) → Option (List String)
  | [] => none
  | (t, l) :: rest => if t = s then some l else lookupLabel s rest

/-- Modelled from the spec: `fts.states.find(s)` from the external
labeled-graph substrate returns the list of (state, label) pairs for the
requested state; a state with no attached AP label yields the empty list
(this is what makes the `if not Ls` check at automata.py:563 meaningful). -/
def FiniteTransitionSystem.find (fts : FiniteTransitionSystem) (s : String) :
    List (String × List String) :=
  match lookupLabel s fts.labels with
  | some l => [(s, l)]
  | none => []

/-- Modelled from the spec: the successor query `fts.states.post(s)`
returns the set of direct successors of `s`. -/
def FiniteTransitionSystem.post (fts : FiniteTransitionSystem) (s : String) :
    List String :=
  fts.edges.foldl (fun acc e => if e.1 = s then insertUniq e.2.1 acc else acc) []

/-- Modelled from the spec: `fts.transitions.find(sources, to_states,
desired_label='any')` returns the (from, to, sublabel) triples whose source
is in `sources` and destination in `dests`, with the wildcard label mode. -/
def FiniteTransitionSystem.transitionsFindAny (fts : FiniteTransitionSystem)
    (sources dests : List String) : List (String × String × Option String) :=
  fts.edges.filter (fun e => decide (e.1 ∈ sources) && decide (e.2.1 ∈ dests))

/-- `BuchiAutomaton` (automata.py:209-285): states, initial and accepting
subsets, the AP-based-alphabet flag fixed at construction, and transitions
`(from, to, guard)` whose guard is a subset of the AP set. -/
structure BuchiAutomaton where
  name : String
  states : List String
  initial : List String
  accepting : List String
  atomic_proposition_based : Bool
  trans : List (String × String × List String)
  deriving DecidableEq, Repr

/-- Modelled from the spec: `ba.transitions.find(sources,
desired_label=...)` returns the transition triples whose source state lies
in `sources` and whose guard equals the desired letter as a set of atomic
propositions (the filtered, non-wildcard mode of the transition lookup). -/
def BuchiAutomaton.transitionsFind (ba : BuchiAutomaton)
    (sources : List String) (desired : List String) :
    List (String × String × List String) :=
  ba.trans.filter (fun t => decide (t.1 ∈ sources) && seteqStr t.2.2 desired)

/-- `BuchiAutomaton.is_accepted` (automata.py:283-285): the method body
consists of the docstring alone, so every call returns Python `None`;
modelled as the constant `none`.  The word is passed as the pair
(finite prefix, ultimately-periodic finite suffix). -/
def BuchiAutomaton.is_accepted (_ba : BuchiAutomaton)
    (_pre _suffix : List (List String)) : Option Bool :=
  none

/-- Modelled from the spec: letter `i` of the infinite word described by
the pair (finite prefix, ultimately-periodic finite suffix). -/
def wordLetter (pre suffix : List (List String)) (i : Nat) : List String :=
  if i < pre.length then pre.getD i []
  else suffix.getD ((i - pre.length) % suffix.length) []

/-- Modelled from the spec: the Buchi acceptance contract that
`is_accepted` is documented to decide — some run from an initial state,
reading the word letter by letter along transitions whose guard equals the
letter, visits the accepting set infinitely often. -/
def buchiAcceptsSpec (ba : BuchiAutomaton) (pre suffix : List (List String)) :
    Prop :=
  ∃ run : Nat → String,
    run 0 ∈ ba.initial ∧
    (∀ i, ∃ t ∈ ba.trans,
      t.1 = run i ∧ t.2.1 = run (i + 1) ∧
      seteqStr t.2.2 (wordLetter pre suffix i) = true) ∧
    (∀ n, ∃ m, n ≤ m ∧ run m ∈ ba.accepting)

/-- An argument as received by the dynamically typed product entry point;
the Python code dispatches on `isinstance` checks, modelled by this sum.
`other` carries the name of the actual type, interpolated into the
`TypeError` message. -/
inductive Operand where
  | fts (t : FiniteTransitionSystem)
  | ba (b : BuchiAutomaton)
  | other (tname : String)
  deriving DecidableEq, Repr

/-- `str(type(x))` as used in the `TypeError` messages. -/
def Operand.typeName : Operand → String
  | .fts _ => "FiniteTransitionSystem"
  | .ba _ => "BuchiAutomaton"
  | .other tname => tname

/-- `convert_ts2ba_label` (automata.py:452-470): turn the result of
`fts.states.find` into the desired BA edge label.  `state_label_dict[0]`
raises `IndexError` when the find result is empty (the unlabeled-state
case); otherwise the 'ap' value of the first pair is returned. -/
def convert_ts2ba_label (state_label_pairs : List (String × List String)) :
    Except AutomataError (List String) :=
  match state_label_pairs with
  | [] => .error .indexError
  | (_, label_dict) :: _ => .ok label_dict

/-- Mutable state of the product construction in `_ts_ba_sync_prod`:
the product transition system being built (`prodStates`, `initialStates`,
`labels`, `edges`), the accepting-states preimage, and the reachability
bookkeeping (`queue`, `visited`). -/
structure SearchSt where
  prodStates : List (String × String)
  initialStates : List (String × String)
  preimage : List (String × String)
  labels : List ((String × String) × List String)
  edges : List ((String × String) × (String × String) × Option String)
  queue : List (String × String)
  visited : List (String × String)
  deriving DecidableEq, Repr

def emptySearchSt : SearchSt :=
  { prodStates := [], initialStates := [], preimage := [],
    labels := [], edges := [], queue := [], visited := [] }

/-- `prodts.states.add(sq)` followed by the accepting-state test
`if q in ba.states.accepting: accepting_states_preimage.add(sq)`
(automata.py:535+540-541 and 586-589). -/
def addProdState (ba : BuchiAutomaton) (sq : String × String)
    (st : SearchSt) : SearchSt :=
  { st with
      prodStates := insertUniq sq st.prodStates,
      preimage := if sq.2 ∈ ba.accepting then insertUniq sq st.preimage
                  else st.preimage }

/-- `prodts.states.initial.add(sq)` (automata.py:536). -/
def addInitialState (sq : String × String) (st : SearchSt) : SearchSt :=
  { st with initialStates := insertUniq sq st.initialStates }

/-- Replace-or-append update of the product state labelling,
`prodts.states.label(sq, v)` (automata.py:537 and 592). -/
def setLabel (sq : String × String) (v : List String) :
    List ((String × String) × List String) →
    List ((String × String) × List String)
  | [] => [(sq, v)]
  | (k, w) :: rest =>
    if k = sq then (k, v) :: rest else (k, w) :: setLabel sq v rest

def setLabelSt (sq : String × String) (v : List String) (st : SearchSt) :
    SearchSt :=
  { st with labels := setLabel sq v st.labels }

/-- The loop over `ts_enabled_trans` (automata.py:598-614): for each TS
edge s -> next_s found with the wildcard label mode, add the product edge
sq -> new_sq carrying the TS sublabel when one is present. -/
def addEdgesFrom (sq new_sq : String × String) :
    List (String × String × Option String) →
    List ((String × String) × (String × String) × Option String) →
    List ((String × String) × (String × String) × Option String)
  | [], es => es
  | (_, _, subl) :: rest, es =>
    addEdgesFrom sq new_sq rest (insertUniq (sq, new_sq, subl) es)

def addEdgesSt (fts : FiniteTransitionSystem) (sq new_sq : String × String)
    (st : SearchSt) : SearchSt :=
  { st with
      edges := addEdgesFrom sq new_sq
        (fts.transitionsFindAny [sq.1] [new_sq.1]) st.edges }

/-- The loop over `enabled_ba_trans` in the expansion phase
(automata.py:581-614): create/reuse the product state (next_s, next_q),
update the preimage, label it with the BA component, record the product
edges, and collect it into `next_sqs`. -/
def processEnabled (fts : FiniteTransitionSystem) (ba : BuchiAutomaton)
    (sq : String × String) (next_s : String) :
    List (String × String × List String) →
    SearchSt × List (String × String) →
    SearchSt × List (String × String)
  | [], acc => acc
  | (_, next_q, _) :: rest, (st, nsqs) =>
    processEnabled fts ba sq next_s rest
      (addEdgesSt fts sq (next_s, next_q)
        (setLabelSt (next_s, next_q) [next_q]
          (addProdState ba (next_s, next_q) st)),
       insertUniq (next_s, next_q) nsqs)

/-- The loop over `next_ss = fts.states.post(s)` (automata.py:559-614):
look up each successor's AP label (raising `MissingLabel` when there is
none), convert it to the desired BA edge label, and process the BA
transitions it enables. -/
def processSuccs (fts : FiniteTransitionSystem) (ba : BuchiAutomaton)
    (sq : String × String) :
    List String → SearchSt × List (String × String) →
    Except AutomataError (SearchSt × List (String × String))
  | [], acc => .ok acc
  | next_s :: rest, acc =>
    match fts.find next_s with
    | [] => .error (.missingLabel next_s)
    | Ls =>
      match convert_ts2ba_label Ls with
      | .error e => .error e
      | .ok Sigma =>
        processSuccs fts ba sq rest
          (processEnabled fts ba sq next_s
            (ba.transitionsFind [sq.2] Sigma) acc)

/-- The post-processing of one expansion round (automata.py:616-621):
queue every collected next state that has not been visited. -/
def enqueueNew : List (String × String) → SearchSt → SearchSt
  | [], st => st
  | nsq :: rest, st =>
    if nsq ∈ st.visited then enqueueNew rest st
    else enqueueNew rest { st with queue := insertUniq nsq st.queue }

/-- `queue.pop()` and `visited.add(sq)` (automata.py:550-551). -/
def popMark (sq : String × String) (rest : List (String × String))
    (st : SearchSt) : SearchSt :=
  { st with queue := rest, visited := insertUniq sq st.visited }

/-- One full body of the `while queue` loop for the popped state `sq`. -/
def expandOne (fts : FiniteTransitionSystem) (ba : BuchiAutomaton)
    (sq : String × String) (st : SearchSt) : Except AutomataError SearchSt :=
  match processSuccs fts ba sq (fts.post sq.1) (st, []) with
  | .error e => .error e
  | .ok (st', nsqs) => .ok (enqueueNew nsqs st')

/-- The `while queue` reachability loop (automata.py:549-621), bounded by
fuel; the Python loop terminates because each iteration visits a product
state never visited before and the product space is finite. -/
def searchLoop (fts : FiniteTransitionSystem) (ba : BuchiAutomaton) :
    Nat → SearchSt → Except AutomataError SearchSt
  | 0, _ => .error .outOfFuel
  | fuel + 1, st =>
    match st.queue with
    | [] => .ok st
    | sq :: rest =>
      match expandOne fts ba sq (popMark sq rest st) with
      | .error e => .error e
      | .ok st' => searchLoop fts ba fuel st'

/-- The inner loop over `enabled_ba_trans` of the seeding phase
(automata.py:533-541): create the product-initial state (s0, q), label it,
and update the accepting preimage. -/
def seedEnabled (ba : BuchiAutomaton) (s0 : String) :
    List (String × String × List String) → SearchSt → SearchSt
  | [], st => st
  | (_, q, _) :: rest, st =>
    seedEnabled ba s0 rest
      (setLabelSt (s0, q) [q]
        (addInitialState (s0, q)
          (addProdState ba (s0, q) st)))

/-- The loop over BA initial states `q0s` (automata.py:521-541). -/
def seedQ0s (ba : BuchiAutomaton) (s0 : String) (Sigma : List String) :
    List String → SearchSt → SearchSt
  | [], st => st
  | q0 :: rest, st =>
    seedQ0s ba s0 Sigma rest
      (seedEnabled ba s0 (ba.transitionsFind [q0] Sigma) st)

/-- The loop over TS initial states `s0s` (automata.py:513-541): the label
of each initial state is converted first, so an unlabeled initial state
raises the `IndexError` from `convert_ts2ba_label`. -/
def seedS0s (fts : FiniteTransitionSystem) (ba : BuchiAutomaton) :
    List String → SearchSt → Except AutomataError SearchSt
  | [], st => .ok st
  | s0 :: rest, st =>
    match convert_ts2ba_label (fts.find s0) with
    | .error e => .error e
    | .ok Sigma => seedS0s fts ba rest (seedQ0s ba s0 Sigma ba.initial st)

/-- The product transition system returned by `_ts_ba_sync_prod`:
states are (TS-state, BA-state) pairs, the atomic propositions are the BA
states (automata.py:503), the actions are copied from the TS operand. -/
structure ProdTS where
  name : String
  states : List (String × String)
  initial : List (String × String)
  atomic_propositions : List String
  actions : List String
  labels : List ((String × String) × List String)
  edges : List ((String × String) × (String × String) × Option String)
  deriving DecidableEq, Repr

/-- Fuel for the reachability loop: every product state ever queued pairs a
TS initial state or TS edge target with a BA transition target, so the
number of loop iterations is bounded by this quantity. -/
def prodFuel (fts : FiniteTransitionSystem) (ba : BuchiAutomaton) : Nat :=
  (fts.initial.length + fts.edges.length + 1) * (ba.trans.length + 1) + 1

/-- `_ts_ba_sync_prod` (automata.py:429-623): the synchronous product
TS x BA.  Checks the operand kinds and the AP-based flag first, seeds the
product-initial states, runs the reachability loop, and returns the product
transition system together with the accepting-states preimage. -/
def ts_ba_sync_prod (transition_system buchi_automaton : Operand) :
    Except AutomataError (ProdTS × List (String × String)) :=
  match transition_system with
  | .fts fts =>
    match buchi_automaton with
    | .ba ba =>
      if ba.atomic_proposition_based then
        match seedS0s fts ba fts.initial emptySearchSt with
        | .error e => .error e
        | .ok st1 =>
          match searchLoop fts ba (prodFuel fts ba)
              { st1 with queue := st1.initialStates } with
          | .error e => .error e
          | .ok st2 =>
            .ok ({ name := fts.name ++ "*" ++ ba.name,
                   states := st2.prodStates,
                   initial := st2.initialStates,
                   atomic_propositions := ba.states,
                   actions := fts.actions,
                   labels := st2.labels,
                   edges := st2.edges }, st2.preimage)
      else .error .typeMismatchNotAPBased
    | op => .error (.typeMismatchBA op.typeName)
  | op => .error (.typeMismatchTS op.typeName)

/-- The concrete TS of the spec's test scenario: states s0 (initial,
label {p}) and s1 (label {}), edges s0 -> s1 and s1 -> s0. -/
def tsEx : FiniteTransitionSystem :=
  { name := "ts", states := ["s0", "s1"], initial := ["s0"], actions := [],
    labels := [("s0", ["p"]), ("s1", [])],
    edges := [("s0", "s1", none), ("s1", "s0", none)] }

/-- The concrete BA of the spec's test scenario: states q0 (initial) and
q1 (accepting), edges q0 -{p}-> q1, q1 -{}-> q0, q0 -{}-> q0,
q1 -{p}-> q1. -/
def baEx : BuchiAutomaton :=
  { name := "ba", states := ["q0", "q1"], initial := ["q0"],
    accepting := ["q1"], atomic_proposition_based := true,
    trans := [("q0", "q1", ["p"]), ("q1", "q0", []),
              ("q0", "q0", []), ("q1", "q1", ["p"])] }

/-- C2: on the spec's concrete scenario the product construction returns
exactly the initial state (s0,q1), the reachable states
{(s0,q1), (s1,q0)}, the unlabeled edges (s0,q1) -> (s1,q0) and
(s1,q0) -> (s0,q1), and the accepting preimage {(s0,q1)}. -/
theorem ts_ba_sync_prod_concrete_scenario :
    ts_ba_sync_prod (.fts tsEx) (.ba baEx) =
      .ok ({ name := "ts*ba",
             states := [("s0", "q1"), ("s1", "q0")],
             initial := [("s0", "q1")],
             atomic_propositions := ["q0", "q1"],
             actions := [],
             labels := [(("s0", "q1"), ["q1"]), (("s1", "q0"), ["q0"])],
             edges := [(("s0", "q1"), ("s1", "q0"), none),
                       (("s1", "q0"), ("s0", "q1"), none)] },
           [("s0", "q1")]) := by
  rfl

/-- A one-state Buchi automaton accepting every infinite word over the
letter {a}: its single state is initial and accepting with a self-loop
guarded by {a}. -/
def baLoop : BuchiAutomaton :=
  { name := "loop", states := ["q"], initial := ["q"], accepting := ["q"],
    atomic_proposition_based := true, trans := [("q", "q", ["a"])] }

/-- C4: `BuchiAutomaton.is_accepted` is an empty stub — on the word
({a})^omega (empty prefix, suffix [{a}]), which `baLoop` accepts under the
documented Buchi contract (the unique run visits the accepting state
infinitely often), the method still returns Python `None` instead of an
accept verdict. -/
theorem is_accepted_stub_diverges_from_contract :
    BuchiAutomaton.is_accepted baLoop [] [["a"]] = none ∧
    buchiAcceptsSpec baLoop [] [["a"]] := by
  refine ⟨rfl, ⟨fun _ => "q", ?_, ?_, ?_⟩⟩
  · simp [baLoop]
  · intro i
    refine ⟨("q", "q", ["a"]), by simp [baLoop], rfl, rfl, ?_⟩
    simp [wordLetter, seteqStr, Nat.mod_one]
  · intro n
    exact ⟨n, le_refl n, by simp [baLoop]⟩

/-- C3: the operand-kind checks and the AP-based check of
`_ts_ba_sync_prod` run before anything is built: a first operand that is
not the finite-transition-system type, a second operand that is not a
Buchi automaton, or a non-AP-based Buchi automaton each make the
construction return the corresponding type-mismatch error, so no partially
built product is observable (the function returns the error instead of any
product data). -/
theorem ts_ba_sync_prod_fail_fast (op1 op2 : Operand) :
    ((∀ t, op1 ≠ Operand.fts t) →
       ts_ba_sync_prod op1 op2 = .error (.typeMismatchTS op1.typeName)) ∧
    (∀ fts1, op1 = Operand.fts fts1 → (∀ b, op2 ≠ Operand.ba b) →
       ts_ba_sync_prod op1 op2 = .error (.typeMismatchBA op2.typeName)) ∧
    (∀ fts1 b, op1 = Operand.fts fts1 → op2 = Operand.ba b →
       b.atomic_proposition_based = false →
       ts_ba_sync_prod op1 op2 = .error .typeMismatchNotAPBased) := by
  refine ⟨?_, ?_, ?_⟩
  · intro h
    cases op1 with
    | fts t => exact absurd rfl (h t)
    | ba b => rfl
    | other s => rfl
  · rintro fts1 rfl h
    cases op2 with
    | fts t => rfl
    | ba b => exact absurd rfl (h b)
    | other s => rfl
  · rintro fts1 b rfl rfl hap
    simp [ts_ba_sync_prod, hap]

/-- Witness for C3 on concrete wrong-kind operands and a concrete
non-AP-based Buchi automaton. -/
theorem ts_ba_sync_prod_fail_fast_witness :
    ts_ba_sync_prod (.other "int") (.ba baEx) =
      .error (.typeMismatchTS "int") ∧
    ts_ba_sync_prod (.fts tsEx) (.other "str") =
      .error (.typeMismatchBA "str") ∧
    ts_ba_sync_prod (.fts tsEx)
        (.ba { baEx with atomic_proposition_based := false }) =
      .error .typeMismatchNotAPBased :=
  ⟨(ts_ba_sync_prod_fail_fast (.other "int") (.ba baEx)).1
      (by intro t h; cases h),
   (ts_ba_sync_prod_fail_fast (.fts tsEx) (.other "str")).2.1 tsEx rfl
      (by intro b h; cases h),
   (ts_ba_sync_prod_fail_fast (.fts tsEx)
        (.ba { baEx with atomic_proposition_based := false })).2.2
      tsEx _ rfl rfl rfl⟩

/-- The accepting-preimage invariant of the construction: the preimage
holds only created product states, and a created product state is in the
preimage exactly when its BA component is accepting. -/
def InvPre (ba : BuchiAutomaton) (st : SearchSt) : Prop :=
  (∀ sq ∈ st.preimage, sq ∈ st.prodStates) ∧
  (∀ sq ∈ st.prodStates, sq ∈ st.preimage ↔ sq.2 ∈ ba.accepting)

theorem addProdState_inv (ba : BuchiAutomaton) (sq : String × String)
    (st : SearchSt) (h : InvPre ba st) : InvPre ba (addProdState ba sq st) := by
  obtain ⟨h1, h2⟩ := h
  unfold addProdState
  by_cases hacc : sq.2 ∈ ba.accepting
  · simp only [if_pos hacc]
    constructor
    · intro x hx
      rcases (mem_insertUniq x sq st.preimage).mp hx with he | hx'
      · exact (mem_insertUniq x sq st.prodStates).mpr (Or.inl he)
      · exact (mem_insertUniq x sq st.prodStates).mpr (Or.inr (h1 x hx'))
    · intro x hx
      rcases (mem_insertUniq x sq st.prodStates).mp hx with he | hx'
      · subst he
        exact ⟨fun _ => hacc,
               fun _ => (mem_insertUniq x x st.preimage).mpr (Or.inl rfl)⟩
      · constructor
        · intro hp
          rcases (mem_insertUniq x sq st.preimage).mp hp with he | hp'
          · exact he ▸ hacc
          · exact (h2 x hx').mp hp'
        · intro ha
          exact (mem_insertUniq x sq st.preimage).mpr
            (Or.inr ((h2 x hx').mpr ha))
  · simp only [if_neg hacc]
    constructor
    · intro x hx
      exact (mem_insertUniq x sq st.prodStates).mpr (Or.inr (h1 x hx))
    · intro x hx
      rcases (mem_insertUniq x sq st.prodStates).mp hx with he | hx'
      · subst he
        constructor
        · intro hp
          exact (h2 x (h1 x hp)).mp hp
        · intro ha
          exact absurd ha hacc
      · exact h2 x hx'

theorem processEnabled_inv (fts : FiniteTransitionSystem)
    (ba : BuchiAutomaton) (sq : String × String) (next_s : String)
    (l : List (String × String × List String)) (st : SearchSt)
    (nsqs : List (String × String)) (h : InvPre ba st) :
    InvPre ba (processEnabled fts ba sq next_s l (st, nsqs)).1 := by
  induction l generalizing st nsqs with
  | nil => exact h
  | cons t rest ih =>
    obtain ⟨a, b, c⟩ := t
    exact ih _ _ (addProdState_inv ba (next_s, b) st h)

theorem processSuccs_inv (fts : FiniteTransitionSystem)
    (ba : BuchiAutomaton) (sq : String × String) (l : List String)
    (acc : SearchSt × List (String × String))
    (res : SearchSt × List (String × String))
    (hres : processSuccs fts ba sq l acc = .ok res)
    (h : InvPre ba acc.1) : InvPre ba res.1 := by
  induction l generalizing acc with
  | nil =>
    simp only [processSuccs] at hres
    cases hres
    exact h
  | cons next_s rest ih =>
    obtain ⟨st, nsqs⟩ := acc
    simp only [processSuccs] at hres
    cases hf : fts.find next_s with
    | nil => rw [hf] at hres; cases hres
    | cons p Ls =>
      obtain ⟨ps, pl⟩ := p
      rw [hf] at hres
      exact ih _ hres (processEnabled_inv fts ba sq next_s _ st nsqs h)

theorem enqueueNew_fields (l : List (String × String)) (st : SearchSt) :
    (enqueueNew l st).prodStates = st.prodStates ∧
    (enqueueNew l st).preimage = st.preimage ∧
    (enqueueNew l st).visited = st.visited ∧
    (enqueueNew l st).initialStates = st.initialStates := by
  induction l generalizing st with
  | nil => exact ⟨rfl, rfl, rfl, rfl⟩
  | cons nsq rest ih =>
    unfold enqueueNew
    by_cases hv : nsq ∈ st.visited
    · simp only [if_pos hv]
      exact ih st
    · simp only [if_neg hv]
      exact ih _

theorem expandOne_inv (fts : FiniteTransitionSystem) (ba : BuchiAutomaton)
    (sq : String × String) (st st' : SearchSt)
    (hres : expandOne fts ba sq st = .ok st') (h : InvPre ba st) :
    InvPre ba st' := by
  unfold expandOne at hres
  cases hp : processSuccs fts ba sq (fts.post sq.1) (st, []) with
  | error e => rw [hp] at hres; cases hres
  | ok r =>
    rw [hp] at hres
    obtain ⟨st1, nsqs⟩ := r
    cases hres
    have hinv := processSuccs_inv fts ba sq _ (st, []) (st1, nsqs) hp h
    obtain ⟨e1, e2, _, _⟩ := enqueueNew_fields nsqs st1
    exact ⟨fun x hx => by rw [e1]; exact hinv.1 x (by rwa [e2] at hx),
           fun x hx => by rw [e2]; exact hinv.2 x (by rwa [e1] at hx)⟩

theorem searchLoop_inv (fts : FiniteTransitionSystem) (ba : BuchiAutomaton)
    (fuel : Nat) (st st' : SearchSt)
    (hres : searchLoop fts ba fuel st = .ok st') (h : InvPre ba st) :
    InvPre ba st' := by
  induction fuel generalizing st with
  | zero => cases hres
  | succ n ih =>
    simp only [searchLoop] at hres
    cases hq : st.queue with
    | nil => rw [hq] at hres; cases hres; exact h
    | cons sq rest =>
      rw [hq] at hres
      simp only at hres
      cases he : expandOne fts ba sq (popMark sq rest st) with
      | error e => rw [he] at hres; cases hres
      | ok st1 =>
        rw [he] at hres
        exact ih st1 hres (expandOne_inv fts ba sq _ st1 he h)

theorem seedEnabled_inv (ba : BuchiAutomaton) (s0 : String)
    (l : List (String × String × List String)) (st : SearchSt)
    (h : InvPre ba st) : InvPre ba (seedEnabled ba s0 l st) := by
  induction l generalizing st with
  | nil => exact h
  | cons t rest ih =>
    obtain ⟨a, b, c⟩ := t
    exact ih _ (addProdState_inv ba (s0, b) st h)

theorem seedQ0s_inv (ba : BuchiAutomaton) (s0 : String) (Sigma : List String)
    (l : List String) (st : SearchSt) (h : InvPre ba st) :
    InvPre ba (seedQ0s ba s0 Sigma l st) := by
  induction l generalizing st with
  | nil => exact h
  | cons q0 rest ih => exact ih _ (seedEnabled_inv ba s0 _ st h)

theorem seedS0s_inv (fts : FiniteTransitionSystem) (ba : BuchiAutomaton)
    (l : List String) (st st' : SearchSt)
    (hres : seedS0s fts ba l st = .ok st') (h : InvPre ba st) :
    InvPre ba st' := by
  induction l generalizing st with
  | nil => simp only [seedS0s] at hres; cases hres; exact h
  | cons s0 rest ih =>
    simp only [seedS0s] at hres
    cases hc : convert_ts2ba_label (fts.find s0) with
    | error e => rw [hc] at hres; cases hres
    | ok Sigma =>
      rw [hc] at hres
      exact ih _ hres (seedQ0s_inv ba s0 Sigma ba.initial st h)

/-- C1: for every TS and BA accepted by the product construction, every
product state created (during seeding or expansion) is a member of the
returned accepting preimage exactly when its BA component lies in the BA's
accepting set, and the preimage contains only product states (it is the
set of such states, not its complement). -/
theorem prod_state_in_preimage_iff_accepting
    (fts1 : FiniteTransitionSystem) (ba : BuchiAutomaton)
    (res : ProdTS × List (String × String))
    (h : ts_ba_sync_prod (.fts fts1) (.ba ba) = .ok res) :
    (∀ sq ∈ res.2, sq ∈ res.1.states) ∧
    (∀ sq ∈ res.1.states, (sq ∈ res.2 ↔ sq.2 ∈ ba.accepting)) := by
  simp only [ts_ba_sync_prod] at h
  by_cases hap : ba.atomic_proposition_based = true
  · rw [if_pos hap] at h
    cases hs : seedS0s fts1 ba fts1.initial emptySearchSt with
    | error e => rw [hs] at h; cases h
    | ok st1 =>
      rw [hs] at h
      simp only at h
      cases hl : searchLoop fts1 ba (prodFuel fts1 ba)
          { st1 with queue := st1.initialStates } with
      | error e => rw [hl] at h; cases h
      | ok st2 =>
        rw [hl] at h
        cases h
        have hinv0 : InvPre ba emptySearchSt := by
          constructor <;> intro x hx <;> simp [emptySearchSt] at hx
        have hinv1 := seedS0s_inv fts1 ba fts1.initial emptySearchSt st1 hs hinv0
        have hinv2 : InvPre ba { st1 with queue := st1.initialStates } := hinv1
        have hinv3 := searchLoop_inv fts1 ba (prodFuel fts1 ba) _ st2 hl hinv2
        exact ⟨hinv3.1, hinv3.2⟩
  · rw [if_neg hap] at h
    cases h

/-- Witness for C1 on the concrete scenario: the product state (s0,q1) is
in the returned preimage exactly because q1 is BA-accepting. -/
theorem prod_state_in_preimage_iff_accepting_witness :
    ("s0", "q1") ∈ [("s0", "q1")] ↔ "q1" ∈ baEx.accepting :=
  (prod_state_in_preimage_iff_accepting tsEx baEx
      ({ name := "ts*ba",
         states := [("s0", "q1"), ("s1", "q0")],
         initial := [("s0", "q1")],
         atomic_propositions := ["q0", "q1"],
         actions := [],
         labels := [(("s0", "q1"), ["q1"]), (("s1", "q0"), ["q0"])],
         edges := [(("s0", "q1"), ("s1", "q0"), none),
                   (("s1", "q0"), ("s0", "q1"), none)] },
       [("s0", "q1")])
      rfl).2 ("s0", "q1") (by decide)

theorem find_eq_nil_of_unlabeled (fts : FiniteTransitionSystem) (s : String)
    (h : lookupLabel s fts.labels = none) : fts.find s = [] := by
  unfold FiniteTransitionSystem.find
  rw [h]

theorem unlabeled_of_find_eq_nil (fts : FiniteTransitionSystem) (s : String)
    (h : fts.find s = []) : lookupLabel s fts.labels = none := by
  unfold FiniteTransitionSystem.find at h
  cases hc : lookupLabel s fts.labels with
  | none => rfl
  | some l => rw [hc] at h; cases h

/-- Bookkeeping of one `enabled_ba_trans` loop: queue, visited and initial
states are untouched; every product state of the result was already present
or is collected in `next_sqs`; `next_sqs` only grows. -/
theorem processEnabled_track (fts : FiniteTransitionSystem)
    (ba : BuchiAutomaton) (sq : String × String) (next_s : String)
    (l : List (String × String × List String)) (st : SearchSt)
    (nsqs : List (String × String)) :
    (processEnabled fts ba sq next_s l (st, nsqs)).1.queue = st.queue ∧
    (processEnabled fts ba sq next_s l (st, nsqs)).1.visited = st.visited ∧
    (processEnabled fts ba sq next_s l (st, nsqs)).1.initialStates
      = st.initialStates ∧
    (∀ x ∈ (processEnabled fts ba sq next_s l (st, nsqs)).1.prodStates,
       x ∈ st.prodStates ∨ x ∈ (processEnabled fts ba sq next_s l (st, nsqs)).2) ∧
    (∀ x ∈ nsqs, x ∈ (processEnabled fts ba sq next_s l (st, nsqs)).2) := by
  induction l generalizing st nsqs with
  | nil => exact ⟨rfl, rfl, rfl, fun x hx => Or.inl hx, fun x hx => hx⟩
  | cons t rest ih =>
    obtain ⟨a, b, c⟩ := t
    obtain ⟨hq, hv, hi, hp, hn⟩ :=
      ih (addEdgesSt fts sq (next_s, b)
            (setLabelSt (next_s, b) [b] (addProdState ba (next_s, b) st)))
         (insertUniq (next_s, b) nsqs)
    refine ⟨hq, hv, hi, ?_, ?_⟩
    · intro x hx
      rcases hp x hx with hx0 | hx1
      · rcases (mem_insertUniq x (next_s, b) st.prodStates).mp hx0 with he | hx2
        · exact Or.inr (hn x ((mem_insertUniq x (next_s, b) nsqs).mpr (Or.inl he)))
        · exact Or.inl hx2
      · exact Or.inr hx1
    · intro x hx
      exact hn x ((mem_insertUniq x (next_s, b) nsqs).mpr (Or.inr hx))

/-- Bookkeeping of a successful successor round: queue, visited and initial
states are untouched, new product states are collected in `next_sqs`, and
every examined successor carried an AP label. -/
theorem processSuccs_track (fts : FiniteTransitionSystem)
    (ba : BuchiAutomaton) (sq : String × String) (l : List String)
    (acc res : SearchSt × List (String × String))
    (hres : processSuccs fts ba sq l acc = .ok res) :
    res.1.queue = acc.1.queue ∧
    res.1.visited = acc.1.visited ∧
    res.1.initialStates = acc.1.initialStates ∧
    (∀ x ∈ res.1.prodStates, x ∈ acc.1.prodStates ∨ x ∈ res.2) ∧
    (∀ x ∈ acc.2, x ∈ res.2) ∧
    (∀ s' ∈ l, lookupLabel s' fts.labels ≠ none) := by
  induction l generalizing acc with
  | nil =>
    simp only [processSuccs] at hres
    cases hres
    exact ⟨rfl, rfl, rfl, fun x hx => Or.inl hx, fun x hx => hx,
           fun s' hs' => absurd hs' (List.not_mem_nil s')⟩
  | cons next_s rest ih =>
    obtain ⟨st, nsqs⟩ := acc
    simp only [processSuccs] at hres
    cases hf : fts.find next_s with
    | nil => rw [hf] at hres; cases hres
    | cons p Ls =>
      obtain ⟨ps, pl⟩ := p
      rw [hf] at hres
      obtain ⟨ihq, ihv, ihi, ihp, ihn, ihl⟩ := ih _ hres
      obtain ⟨eq1, ev1, ei1, ep1, en1⟩ :=
        processEnabled_track fts ba sq next_s
          (ba.transitionsFind [sq.2] pl) st nsqs
      refine ⟨ihq.trans eq1, ihv.trans ev1, ihi.trans ei1, ?_, ?_, ?_⟩
      · intro x hx
        rcases ihp x hx with hx0 | hx1
        · rcases ep1 x hx0 with hx2 | hx3
          · exact Or.inl hx2
          · exact Or.inr (ihn x hx3)
        · exact Or.inr hx1
      · intro x hx
        exact ihn x (en1 x hx)
      · intro s' hs'
        rcases List.mem_cons.mp hs' with he | hs2
        · subst he
          intro hc
          rw [find_eq_nil_of_unlabeled fts s' hc] at hf
          cases hf
        · exact ihl s' hs2
  
/-- A failing successor round fails with `MissingLabel`, and the state it
names indeed carries no AP label. -/
theorem processSuccs_error (fts : FiniteTransitionSystem)
    (ba : BuchiAutomaton) (sq : String × String) (l : List String)
    (acc : SearchSt × List (String × String)) (e : AutomataError)
    (hres : processSuccs fts ba sq l acc = .error e) :
    ∃ s, e = .missingLabel s ∧ lookupLabel s fts.labels = none := by
  induction l generalizing acc with
  | nil => simp only [processSuccs] at hres; cases hres
  | cons next_s rest ih =>
    obtain ⟨st, nsqs⟩ := acc
    simp only [processSuccs] at hres
    cases hf : fts.find next_s with
    | nil =>
      rw [hf] at hres
      cases hres
      exact ⟨next_s, rfl, unlabeled_of_find_eq_nil fts next_s hf⟩
    | cons p Ls =>
      obtain ⟨ps, pl⟩ := p
      rw [hf] at hres
      exact ih _ hres

/-- Queue bookkeeping of `enqueueNew`: the queue only grows, and every
collected next state ends up queued unless it was already visited. -/
theorem enqueueNew_queue (l : List (String × String)) (st : SearchSt) :
    (∀ x ∈ st.queue, x ∈ (enqueueNew l st).queue) ∧
    (∀ x ∈ l, x ∈ (enqueueNew l st).queue ∨ x ∈ st.visited) := by
  induction l generalizing st with
  | nil => exact ⟨fun x hx => hx, fun x hx => absurd hx (List.not_mem_nil x)⟩
  | cons nsq rest ih =>
    unfold enqueueNew
    by_cases hv : nsq ∈ st.visited
    · simp only [if_pos hv]
      obtain ⟨m, p⟩ := ih st
      refine ⟨m, ?_⟩
      intro x hx
      rcases List.mem_cons.mp hx with he | hx'
      · exact Or.inr (he ▸ hv)
      · exact p x hx'
    · simp only [if_neg hv]
      obtain ⟨m, p⟩ := ih { st with queue := insertUniq nsq st.queue }
      refine ⟨?_, ?_⟩
      · intro x hx
        exact m x ((mem_insertUniq x nsq st.queue).mpr (Or.inr hx))
      · intro x hx
        rcases List.mem_cons.mp hx with he | hx'
        · exact Or.inl (m x ((mem_insertUniq x nsq st.queue).mpr (Or.inl he)))
        · exact p x hx'

/-- One successful expansion round: visited is exactly the pre-round
visited, the queue only grows, every product state is accounted for by the
queue or visited sets, and every TS successor of the expanded state was
labeled. -/
theorem expandOne_reach (fts : FiniteTransitionSystem) (ba : BuchiAutomaton)
    (sq : String × String) (st st' : SearchSt)
    (hres : expandOne fts ba sq st = .ok st') :
    st'.visited = st.visited ∧
    (∀ x ∈ st.queue, x ∈ st'.queue) ∧
    (∀ x ∈ st'.prodStates,
       x ∈ st.prodStates ∨ x ∈ st'.queue ∨ x ∈ st'.visited) ∧
    (∀ s' ∈ fts.post sq.1, lookupLabel s' fts.labels ≠ none) := by
  unfold expandOne at hres
  cases hp : processSuccs fts ba sq (fts.post sq.1) (st, []) with
  | error e => rw [hp] at hres; cases hres
  | ok r =>
    rw [hp] at hres
    obtain ⟨st1, nsqs⟩ := r
    cases hres
    obtain ⟨hq1, hv1, _, hp1, _, hl1⟩ :=
      processSuccs_track fts ba sq (fts.post sq.1) (st, []) (st1, nsqs) hp
    obtain ⟨ef1, ef2, ef3, _⟩ := enqueueNew_fields nsqs st1
    obtain ⟨em, ep⟩ := enqueueNew_queue nsqs st1
    refine ⟨ef3.trans hv1, ?_, ?_, hl1⟩
    · intro x hx
      exact em x (hq1 ▸ hx)
    · intro x hx
      rw [ef1] at hx
      rcases hp1 x hx with hx0 | hx1
      · exact Or.inl hx0
      · rcases ep x hx1 with hx2 | hx3
        · exact Or.inr (Or.inl hx2)
        · exact Or.inr (Or.inr (by rw [ef3]; exact hx3))

/-- Invariant of the reachability loop: every created product state is
queued or visited, and every visited state was expanded with all of its TS
successors labeled. -/
def InvReach (fts : FiniteTransitionSystem) (st : SearchSt) : Prop :=
  (∀ sq ∈ st.prodStates, sq ∈ st.queue ∨ sq ∈ st.visited) ∧
  (∀ sq ∈ st.visited, ∀ s' ∈ fts.post sq.1, lookupLabel s' fts.labels ≠ none)

theorem searchLoop_reach (fts : FiniteTransitionSystem) (ba : BuchiAutomaton)
    (fuel : Nat) (st st' : SearchSt)
    (hres : searchLoop fts ba fuel st = .ok st') (h : InvReach fts st) :
    InvReach fts st' ∧ st'.queue = [] := by
  induction fuel generalizing st with
  | zero => cases hres
  | succ n ih =>
    simp only [searchLoop] at hres
    cases hq : st.queue with
    | nil => rw [hq] at hres; cases hres; exact ⟨h, hq⟩
    | cons sq rest =>
      rw [hq] at hres
      simp only at hres
      cases he : expandOne fts ba sq (popMark sq rest st) with
      | error e => rw [he] at hres; cases hres
      | ok st1 =>
        rw [he] at hres
        refine ih st1 hres ?_
        obtain ⟨hvis, hqm, hps, hlab⟩ := expandOne_reach fts ba sq _ st1 he
        constructor
        · intro x hx
          rcases hps x hx with hx0 | hx1
          · rcases h.1 x hx0 with hq0 | hv0
            · rw [hq] at hq0
              rcases List.mem_cons.mp hq0 with he1 | hr
              · right
                rw [hvis]
                exact (mem_insertUniq x sq st.visited).mpr (Or.inl he1)
              · exact Or.inl (hqm x hr)
            · right
              rw [hvis]
              exact (mem_insertUniq x sq st.visited).mpr (Or.inr hv0)
          · exact hx1
        · intro x hx s' hs'
          rw [hvis] at hx
          rcases (mem_insertUniq x sq st.visited).mp hx with he1 | hv
          · subst he1
            exact hlab s' hs'
          · exact h.2 x hv s' hs'

/-- A failing reachability loop fails either with the fuel artifact or with
a `MissingLabel` error naming a genuinely unlabeled state. -/
theorem searchLoop_error (fts : FiniteTransitionSystem) (ba : BuchiAutomaton)
    (fuel : Nat) (st : SearchSt) (e : AutomataError)
    (hres : searchLoop fts ba fuel st = .error e) :
    e = .outOfFuel ∨
    ∃ s, e = .missingLabel s ∧ lookupLabel s fts.labels = none := by
  induction fuel generalizing st with
  | zero => simp only [searchLoop] at hres; cases hres; exact Or.inl rfl
  | succ n ih =>
    simp only [searchLoop] at hres
    cases hq : st.queue with
    | nil => rw [hq] at hres; cases hres
    | cons sq rest =>
      rw [hq] at hres
      simp only at hres
      cases he : expandOne fts ba sq (popMark sq rest st) with
      | error e1 =>
        rw [he] at hres
        cases hres
        unfold expandOne at he
        cases hp : processSuccs fts ba sq (fts.post sq.1)
            (popMark sq rest st, []) with
        | error e2 =>
          rw [hp] at he
          cases he
          exact Or.inr (processSuccs_error fts ba sq _ _ e hp)
        | ok r => rw [hp] at he; cases he
      | ok st1 =>
        rw [he] at hres
        exact ih st1 hres

/-- Seeding bookkeeping: queue and visited are untouched and every seeded
product state is also a product-initial state. -/
theorem seedEnabled_track (ba : BuchiAutomaton) (s0 : String)
    (l : List (String × String × List String)) (st : SearchSt) :
    (seedEnabled ba s0 l st).queue = st.queue ∧
    (seedEnabled ba s0 l st).visited = st.visited ∧
    ((∀ x ∈ st.prodStates, x ∈ st.initialStates) →
       ∀ x ∈ (seedEnabled ba s0 l st).prodStates,
         x ∈ (seedEnabled ba s0 l st).initialStates) := by
  induction l generalizing st with
  | nil => exact ⟨rfl, rfl, fun h => h⟩
  | cons t rest ih =>
    obtain ⟨a, b, c⟩ := t
    obtain ⟨hq, hv, hp⟩ :=
      ih (setLabelSt (s0, b) [b]
            (addInitialState (s0, b) (addProdState ba (s0, b) st)))
    refine ⟨hq, hv, fun h => hp ?_⟩
    intro x hx
    rcases (mem_insertUniq x (s0, b) st.prodStates).mp hx with he | hx'
    · exact (mem_insertUniq x (s0, b) st.initialStates).mpr (Or.inl he)
    · exact (mem_insertUniq x (s0, b) st.initialStates).mpr (Or.inr (h x hx'))

theorem seedQ0s_track (ba : BuchiAutomaton) (s0 : String)
    (Sigma : List String) (l : List String) (st : SearchSt) :
    (seedQ0s ba s0 Sigma l st).queue = st.queue ∧
    (seedQ0s ba s0 Sigma l st).visited = st.visited ∧
    ((∀ x ∈ st.prodStates, x ∈ st.initialStates) →
       ∀ x ∈ (seedQ0s ba s0 Sigma l st).prodStates,
         x ∈ (seedQ0s ba s0 Sigma l st).initialStates) := by
  induction l generalizing st with
  | nil => exact ⟨rfl, rfl, fun h => h⟩
  | cons q0 rest ih =>
    obtain ⟨hq1, hv1, hp1⟩ :=
      seedEnabled_track ba s0 (ba.transitionsFind [q0] Sigma) st
    obtain ⟨hq2, hv2, hp2⟩ :=
      ih (seedEnabled ba s0 (ba.transitionsFind [q0] Sigma) st)
    exact ⟨hq2.trans hq1, hv2.trans hv1, fun h => hp2 (hp1 h)⟩

theorem seedS0s_track (fts : FiniteTransitionSystem) (ba : BuchiAutomaton)
    (l : List String) (st st' : SearchSt)
    (hres : seedS0s fts ba l st = .ok st') :
    st'.queue = st.queue ∧
    st'.visited = st.visited ∧
    ((∀ x ∈ st.prodStates, x ∈ st.initialStates) →
       ∀ x ∈ st'.prodStates, x ∈ st'.initialStates) := by
  induction l generalizing st with
  | nil =>
    simp only [seedS0s] at hres
    cases hres
    exact ⟨rfl, rfl, fun h => h⟩
  | cons s0 rest ih =>
    simp only [seedS0s] at hres
    cases hc : convert_ts2ba_label (fts.find s0) with
    | error e => rw [hc] at hres; cases hres
    | ok Sigma =>
      rw [hc] at hres
      obtain ⟨hq1, hv1, hp1⟩ := seedQ0s_track ba s0 Sigma ba.initial st
      obtain ⟨hq2, hv2, hp2⟩ := ih _ hres
      exact ⟨hq2.trans hq1, hv2.trans hv1, fun h => hp2 (hp1 h)⟩

/-- Seeding can only fail with the IndexError from `convert_ts2ba_label`. -/
theorem seedS0s_error (fts : FiniteTransitionSystem) (ba : BuchiAutomaton)
    (l : List String) (st : SearchSt) (e : AutomataError)
    (hres : seedS0s fts ba l st = .error e) : e = .indexError := by
  induction l generalizing st with
  | nil => simp only [seedS0s] at hres; cases hres
  | cons s0 rest ih =>
    simp only [seedS0s] at hres
    cases hc : convert_ts2ba_label (fts.find s0) with
    | error e1 =>
      rw [hc] at hres
      cases hres
      unfold convert_ts2ba_label at hc
      cases hf : fts.find s0 with
      | nil => rw [hf] at hc; cases hc; rfl
      | cons p Ls =>
        obtain ⟨ps, pl⟩ := p
        rw [hf] at hc
        cases hc
    | ok Sigma =>
      rw [hc] at hres
      exact ih _ hres

/-- Seeding fails with the IndexError as soon as some TS initial state in
the list carries no AP label. -/
theorem seedS0s_unlabeled (fts : FiniteTransitionSystem)
    (ba : BuchiAutomaton) (l : List String) (st : SearchSt) (s0 : String)
    (hmem : s0 ∈ l) (hunl : lookupLabel s0 fts.labels = none) :
    seedS0s fts ba l st = .error .indexError := by
  revert hmem
  induction l generalizing st with
  | nil => intro hmem; cases hmem
  | cons a rest ih =>
    intro hmem
    simp only [seedS0s]
    cases hc : convert_ts2ba_label (fts.find a) with
    | error e =>
      simp only [hc]
      have he : e = .indexError := by
        unfold convert_ts2ba_label at hc
        cases hf : fts.find a with
        | nil => rw [hf] at hc; cases hc; rfl
        | cons p Ls =>
          obtain ⟨ps, pl⟩ := p
          rw [hf] at hc
          cases hc
      rw [he]
    | ok Sigma =>
      simp only [hc]
      rcases List.mem_cons.mp hmem with he | hr
      · subst he
        rw [find_eq_nil_of_unlabeled fts s0 hunl] at hc
        cases hc
      · exact ih _ hr

/-- C5: states encountered during the reachability expansion must carry an
AP label.  A successful construction certifies that every TS successor of
every created product state carries an AP label (so an unlabeled state
encountered during expansion cannot coexist with success), and whenever the
construction fails with `MissingLabel`, the error identifies a state that
indeed carries no AP label. -/
theorem missing_label_on_unlabeled_reachable
    (fts1 : FiniteTransitionSystem) (ba : BuchiAutomaton) :
    (∀ res, ts_ba_sync_prod (.fts fts1) (.ba ba) = .ok res →
       ∀ sq ∈ res.1.states, ∀ s' ∈ fts1.post sq.1,
         lookupLabel s' fts1.labels ≠ none) ∧
    (∀ s, ts_ba_sync_prod (.fts fts1) (.ba ba) = .error (.missingLabel s) →
       lookupLabel s fts1.labels = none) := by
  constructor
  · intro res h sq hsq s' hs'
    simp only [ts_ba_sync_prod] at h
    by_cases hap : ba.atomic_proposition_based = true
    · rw [if_pos hap] at h
      cases hs : seedS0s fts1 ba fts1.initial emptySearchSt with
      | error e => rw [hs] at h; cases h
      | ok st1 =>
        rw [hs] at h
        simp only at h
        cases hl : searchLoop fts1 ba (prodFuel fts1 ba)
            { st1 with queue := st1.initialStates } with
        | error e => rw [hl] at h; cases h
        | ok st2 =>
          rw [hl] at h
          cases h
          obtain ⟨hq0, hv0, hincl⟩ := seedS0s_track fts1 ba _ _ st1 hs
          have hInv : InvReach fts1 { st1 with queue := st1.initialStates } := by
            constructor
            · intro x hx
              exact Or.inl
                (hincl (fun y hy => absurd hy (List.not_mem_nil y)) x hx)
            · intro x hx
              rw [hv0] at hx
              exact absurd hx (List.not_mem_nil x)
          obtain ⟨⟨hr1, hr2⟩, hqnil⟩ :=
            searchLoop_reach fts1 ba (prodFuel fts1 ba) _ st2 hl hInv
          rcases hr1 sq hsq with hq2 | hv2
          · rw [hqnil] at hq2
            exact absurd hq2 (List.not_mem_nil sq)
          · exact hr2 sq hv2 s' hs'
    · rw [if_neg hap] at h
      cases h
  · intro s h
    simp only [ts_ba_sync_prod] at h
    by_cases hap : ba.atomic_proposition_based = true
    · rw [if_pos hap] at h
      cases hs : seedS0s fts1 ba fts1.initial emptySearchSt with
      | error e =>
        rw [hs] at h
        cases h
        exact AutomataError.noConfusion (seedS0s_error fts1 ba _ _ _ hs)
      | ok st1 =>
        rw [hs] at h
        simp only at h
        cases hl : searchLoop fts1 ba (prodFuel fts1 ba)
            { st1 with queue := st1.initialStates } with
        | error e =>
          rw [hl] at h
          cases h
          rcases searchLoop_error fts1 ba _ _ _ hl with h1 | ⟨s2, h2, h3⟩
          · exact AutomataError.noConfusion h1
          · injection h2 with h4
            subst h4
            exact h3
        | ok st2 => rw [hl] at h; cases h
    · rw [if_neg hap] at h
      injection h with h2
      exact AutomataError.noConfusion h2

/-- A TS identical to the concrete scenario's but with the reachable state
s1 left unlabeled. -/
def tsNoSuccLabel : FiniteTransitionSystem :=
  { name := "ts", states := ["s0", "s1"], initial := ["s0"], actions := [],
    labels := [("s0", ["p"])],
    edges := [("s0", "s1", none), ("s1", "s0", none)] }

/-- Witness for C5: on `tsNoSuccLabel` the construction fails with
`MissingLabel "s1"`, and the theorem yields that s1 is indeed unlabeled. -/
theorem missing_label_on_unlabeled_reachable_witness :
    lookupLabel "s1" tsNoSuccLabel.labels = none :=
  (missing_label_on_unlabeled_reachable tsNoSuccLabel baEx).2 "s1" rfl

/-- C10: an unlabeled TS initial state makes the construction fail during
seeding with the IndexError raised inside `convert_ts2ba_label`; this error
carries no state identity (it is distinct from every `MissingLabel s`
diagnostic, which only the reachability expansion produces). -/
theorem unlabeled_initial_state_index_error
    (fts1 : FiniteTransitionSystem) (ba : BuchiAutomaton)
    (hap : ba.atomic_proposition_based = true) (s0 : String)
    (hmem : s0 ∈ fts1.initial) (hunl : lookupLabel s0 fts1.labels = none) :
    ts_ba_sync_prod (.fts fts1) (.ba ba) = .error .indexError ∧
    ∀ s, (AutomataError.indexError ≠ .missingLabel s) := by
  constructor
  · simp only [ts_ba_sync_prod]
    rw [if_pos hap,
        seedS0s_unlabeled fts1 ba fts1.initial emptySearchSt s0 hmem hunl]
  · intro s hc
    cases hc

/-- A TS identical to the concrete scenario's but with the initial state
s0 left unlabeled. -/
def tsNoInitLabel : FiniteTransitionSystem :=
  { name := "ts", states := ["s0", "s1"], initial := ["s0"], actions := [],
    labels := [("s1", [])],
    edges := [("s0", "s1", none), ("s1", "s0", none)] }

/-- Witness for C10 on `tsNoInitLabel`. -/
theorem unlabeled_initial_state_index_error_witness :
    ts_ba_sync_prod (.fts tsNoInitLabel) (.ba baEx) = .error .indexError :=
  (unlabeled_initial_state_index_error tsNoInitLabel baEx rfl "s0"
    (by decide) rfl).1

/-- Modelled from the spec: the external `SubSet` set algebra extends an
element list with new elements one at a time, failing with `InvalidState`
at the first element that was not declared a state of the bound universe.
Returns the (possibly partially) extended element list together with the
offending element, if any; this models both `subset |= elems` and
`subset.add_from(elems)` on a `SubSet` bound to the universe. -/
def subsetAddFrom (univ : List String) :
    List String → List String → List String × Option String
  | elems, [] => (elems, none)
  | elems, x :: rest =>
    if x ∈ univ then subsetAddFrom univ (insertUniq x elems) rest
    else (elems, some x)

/-- `RabinPairs` (automata.py:635-781): the bound automaton state universe
(`self._states`) and the ordered list of (good, bad) pairs
(`self._pairs`), each side a `SubSet` of the universe modelled as its
element list. -/
structure RabinPairs where
  states : List String
  pairs : List (List String × List String)
  deriving DecidableEq, Repr

/-- `RabinPairs.add` (automata.py:700-719): build the two `SubSet`s (which
validates every element against the universe), then append the new pair;
nothing is appended when validation fails. -/
def RabinPairs.add (rp : RabinPairs) (good_states bad_states : List String) :
    RabinPairs × Option AutomataError :=
  match subsetAddFrom rp.states [] good_states with
  | (_, some x) => (rp, some (.invalidState x))
  | (good_set, none) =>
    match subsetAddFrom rp.states [] bad_states with
    | (_, some x) => (rp, some (.invalidState x))
    | (bad_set, none) =>
      ({ rp with pairs := rp.pairs ++ [(good_set, bad_set)] }, none)

/-- Value equality of a stored pair against a (good, bad) request, as used
by `self._pairs.remove((good_set, bad_set))`: the two element lists must be
equal as sets on both sides. -/
def pairMatches (p : List String × List String) (good bad : List String) :
    Bool :=
  seteqStr p.1 good && seteqStr p.2 bad

/-- Python `list.remove`: delete the first element equal to the request,
`none` when no element matches (`ValueError`). -/
def removeFirst (good bad : List String) :
    List (List String × List String) →
    Option (List (List String × List String))
  | [] => none
  | p :: rest =>
    if pairMatches p good bad then some rest
    else
      match removeFirst good bad rest with
      | none => none
      | some rest' => some (p :: rest')

/-- `RabinPairs.remove` (automata.py:721-752): rebuild the two `SubSet`s
from the arguments, then delete the first pair equal to them by value;
`PairNotFound` (a `ValueError` in Python) when no pair matches. -/
def RabinPairs.remove (rp : RabinPairs)
    (good_states bad_states : List String) :
    RabinPairs × Option AutomataError :=
  match subsetAddFrom rp.states [] good_states with
  | (_, some x) => (rp, some (.invalidState x))
  | (good_set, none) =>
    match subsetAddFrom rp.states [] bad_states with
    | (_, some x) => (rp, some (.invalidState x))
    | (bad_set, none) =>
      match removeFirst good_set bad_set rp.pairs with
      | none => (rp, some .pairNotFound)
      | some pairs' => ({ rp with pairs := pairs' }, none)

/-- Python list indexing for `self._pairs[pair_index]`: indices in
[-len, len) are valid, negative ones counting from the end; anything else
raises `IndexError`. -/
def pyIndex {α : Type} (l : List α) (i : Int) : Option Nat :=
  if 0 ≤ i ∧ i < l.length then some i.toNat
  else if -(l.length : Int) ≤ i ∧ i < 0 then some ((l.length : Int) + i).toNat
  else none

/-- `RabinPairs.add_states` (automata.py:754-760): extend the good then the
bad side of the indexed pair in place; an out-of-range index is caught and
re-raised as the index-range error.  A failing element validation leaves
the earlier in-place extensions in effect, exactly like the Python
mutation. -/
def RabinPairs.add_states (rp : RabinPairs) (pair_index : Int)
    (good_states bad_states : List String) :
    RabinPairs × Option AutomataError :=
  match pyIndex rp.pairs pair_index with
  | none => (rp, some .indexRangeError)
  | some j =>
    match subsetAddFrom rp.states (rp.pairs.getD j ([], [])).1 good_states with
    | (g', some x) =>
      ({ rp with pairs := rp.pairs.set j (g', (rp.pairs.getD j ([], [])).2) },
       some (.invalidState x))
    | (g', none) =>
      match subsetAddFrom rp.states (rp.pairs.getD j ([], [])).2 bad_states with
      | (b', some x) =>
        ({ rp with pairs := rp.pairs.set j (g', b') }, some (.invalidState x))
      | (b', none) =>
        ({ rp with pairs := rp.pairs.set j (g', b') }, none)

/-- An arbitrary interaction with a `RabinPairs` object. -/
inductive RabinOp where
  | addPair (good bad : List String)
  | removePair (good bad : List String)
  | addStates (i : Int) (good bad : List String)
  deriving DecidableEq, Repr

def applyOp (rp : RabinPairs) : RabinOp → RabinPairs × Option AutomataError
  | .addPair g b => rp.add g b
  | .removePair g b => rp.remove g b
  | .addStates i g b => rp.add_states i g b

/-- Run a sequence of operations, keeping the object state left behind by
each operation whether it succeeded or raised. -/
def applyOps (rp : RabinPairs) : List RabinOp → RabinPairs
  | [] => rp
  | op :: rest => applyOps (applyOp rp op).1 rest

/-- The documented invariant: both sides of every pair contain only
declared states of the bound universe. -/
def RabinInv (rp : RabinPairs) : Prop :=
  ∀ p ∈ rp.pairs, (∀ x ∈ p.1, x ∈ rp.states) ∧ (∀ x ∈ p.2, x ∈ rp.states)

theorem subsetAddFrom_mem (univ elems xs : List String)
    (h : ∀ y ∈ elems, y ∈ univ) :
    ∀ y ∈ (subsetAddFrom univ elems xs).1, y ∈ univ := by
  induction xs generalizing elems with
  | nil => exact h
  | cons x rest ih =>
    simp only [subsetAddFrom]
    by_cases hx : x ∈ univ
    · rw [if_pos hx]
      refine ih _ ?_
      intro y hy
      rcases (mem_insertUniq y x elems).mp hy with rfl | hy'
      · exact hx
      · exact h y hy'
    · rw [if_neg hx]
      exact h

theorem subsetAddFrom_none_iff (univ elems xs : List String) :
    (subsetAddFrom univ elems xs).2 = none ↔ ∀ x ∈ xs, x ∈ univ := by
  induction xs generalizing elems with
  | nil => simp [subsetAddFrom]
  | cons x rest ih =>
    simp only [subsetAddFrom]
    by_cases hx : x ∈ univ
    · rw [if_pos hx]
      constructor
      · intro h y hy
        rcases List.mem_cons.mp hy with rfl | hy'
        · exact hx
        · exact (ih _).mp h y hy'
      · intro h
        exact (ih _).mpr (fun y hy => h y (List.mem_cons_of_mem x hy))
    · rw [if_neg hx]
      constructor
      · intro h
        simp at h
      · intro h
        exact absurd (h x (List.mem_cons_self x rest)) hx

theorem subsetAddFrom_some_invalid (univ elems xs : List String) (y : String)
    (h : (subsetAddFrom univ elems xs).2 = some y) : y ∉ univ := by
  induction xs generalizing elems with
  | nil => simp [subsetAddFrom] at h
  | cons x rest ih =>
    simp only [subsetAddFrom] at h
    by_cases hx : x ∈ univ
    · rw [if_pos hx] at h
      exact ih _ h
    · rw [if_neg hx] at h
      injection h with h2
      subst h2
      exact hx

theorem subsetAddFrom_mono (univ elems xs : List String) :
    ∀ y ∈ elems, y ∈ (subsetAddFrom univ elems xs).1 := by
  induction xs generalizing elems with
  | nil => exact fun y hy => hy
  | cons x rest ih =>
    simp only [subsetAddFrom]
    by_cases hx : x ∈ univ
    · rw [if_pos hx]
      exact fun y hy => ih _ y ((mem_insertUniq y x elems).mpr (Or.inr hy))
    · rw [if_neg hx]
      exact fun y hy => hy

theorem subsetAddFrom_mem_iff (univ elems xs : List String)
    (h : (subsetAddFrom univ elems xs).2 = none) :
    ∀ y, (y ∈ (subsetAddFrom univ elems xs).1 ↔ y ∈ elems ∨ y ∈ xs) := by
  induction xs generalizing elems with
  | nil =>
    intro y
    simp [subsetAddFrom]
  | cons x rest ih =>
    simp only [subsetAddFrom] at h ⊢
    by_cases hx : x ∈ univ
    · rw [if_pos hx] at h ⊢
      intro y
      rw [ih _ h y, mem_insertUniq y x elems]
      constructor
      · rintro ((he | hy) | hy)
        · rw [he]
          exact Or.inr (List.mem_cons_self x rest)
        · exact Or.inl hy
        · exact Or.inr (List.mem_cons_of_mem x hy)
      · rintro (hy | hy)
        · exact Or.inl (Or.inr hy)
        · rcases List.mem_cons.mp hy with rfl | hy'
          · exact Or.inl (Or.inl rfl)
          · exact Or.inr hy'
    · rw [if_neg hx] at h
      simp at h

theorem RabinPairs.add_inv (rp : RabinPairs) (g b : List String)
    (h : RabinInv rp) : RabinInv (rp.add g b).1 := by
  unfold RabinPairs.add
  cases hg : subsetAddFrom rp.states [] g with
  | mk gset og =>
    cases og with
    | some x => exact h
    | none =>
      cases hb : subsetAddFrom rp.states [] b with
      | mk bset ob =>
        cases ob with
        | some x => exact h
        | none =>
          intro p hp
          rcases List.mem_append.mp hp with hp1 | hp2
          · exact h p hp1
          · rcases List.mem_singleton.mp hp2 with rfl
            constructor
            · have hm := subsetAddFrom_mem rp.states [] g
                (fun y hy => absurd hy (List.not_mem_nil y))
              rw [hg] at hm
              exact hm
            · have hm := subsetAddFrom_mem rp.states [] b
                (fun y hy => absurd hy (List.not_mem_nil y))
              rw [hb] at hm
              exact hm

theorem removeFirst_mem (g b : List String)
    (l l' : List (List String × List String))
    (h : removeFirst g b l = some l') : ∀ p ∈ l', p ∈ l := by
  induction l generalizing l' with
  | nil => simp [removeFirst] at h
  | cons q rest ih =>
    simp only [removeFirst] at h
    by_cases hm : pairMatches q g b = true
    · rw [if_pos hm] at h
      injection h with h2
      subst h2
      exact fun p hp => List.mem_cons_of_mem q hp
    · rw [if_neg hm] at h
      cases hr : removeFirst g b rest with
      | none => rw [hr] at h; cases h
      | some rest' =>
        rw [hr] at h
        injection h with h2
        subst h2
        intro p hp
        rcases List.mem_cons.mp hp with rfl | hp'
        · exact List.mem_cons_self p rest
        · exact List.mem_cons_of_mem q (ih rest' hr p hp')

theorem RabinPairs.remove_inv (rp : RabinPairs) (g b : List String)
    (h : RabinInv rp) : RabinInv (rp.remove g b).1 := by
  unfold RabinPairs.remove
  cases hg : subsetAddFrom rp.states [] g with
  | mk gset og =>
    cases og with
    | some x => exact h
    | none =>
      simp only
      cases hb : subsetAddFrom rp.states [] b with
      | mk bset ob =>
        cases ob with
        | some x => exact h
        | none =>
          simp only
          cases hr : removeFirst gset bset rp.pairs with
          | none => exact h
          | some pairs' =>
            intro p hp
            exact h p (removeFirst_mem gset bset rp.pairs pairs' hr p hp)

theorem pyIndex_some_lt {α : Type} (l : List α) (i : Int) (j : Nat)
    (h : pyIndex l i = some j) : j < l.length := by
  unfold pyIndex at h
  by_cases h1 : 0 ≤ i ∧ i < (l.length : Int)
  · rw [if_pos h1] at h
    injection h with h2
    omega
  · rw [if_neg h1] at h
    by_cases h2 : -((l.length : Int)) ≤ i ∧ i < 0
    · rw [if_pos h2] at h
      injection h with h3
      omega
    · rw [if_neg h2] at h
      cases h

theorem getD_mem_of_lt {α : Type} (l : List α) (j : Nat) (d : α)
    (hj : j < l.length) : l.getD j d ∈ l := by
  rw [List.getD_eq_getElem?_getD, List.getElem?_eq_getElem hj,
      Option.getD_some]
  exact List.getElem_mem hj

theorem RabinPairs.add_states_inv (rp : RabinPairs) (i : Int)
    (g b : List String) (h : RabinInv rp) :
    RabinInv (rp.add_states i g b).1 := by
  unfold RabinPairs.add_states
  cases hj : pyIndex rp.pairs i with
  | none => exact h
  | some j =>
    simp only
    have hjlt : j < rp.pairs.length := pyIndex_some_lt rp.pairs i j hj
    obtain ⟨hg1, hb1⟩ := h _ (getD_mem_of_lt rp.pairs j ([], []) hjlt)
    cases hg : subsetAddFrom rp.states (rp.pairs.getD j ([], [])).1 g with
    | mk g' og =>
      have hg'sub : ∀ y ∈ g', y ∈ rp.states := by
        have hm := subsetAddFrom_mem rp.states
          (rp.pairs.getD j ([], [])).1 g hg1
        rw [hg] at hm
        exact hm
      cases og with
      | some x =>
        simp only
        intro p hp
        rcases List.mem_or_eq_of_mem_set hp with hp1 | he
        · exact h p hp1
        · rw [he]
          exact ⟨hg'sub, hb1⟩
      | none =>
        simp only
        cases hb2 : subsetAddFrom rp.states (rp.pairs.getD j ([], [])).2 b with
        | mk b' ob =>
          have hb'sub : ∀ y ∈ b', y ∈ rp.states := by
            have hm := subsetAddFrom_mem rp.states
              (rp.pairs.getD j ([], [])).2 b hb1
            rw [hb2] at hm
            exact hm
          cases ob with
          | some x =>
            simp only
            intro p hp
            rcases List.mem_or_eq_of_mem_set hp with hp1 | he
            · exact h p hp1
            · rw [he]
              exact ⟨hg'sub, hb'sub⟩
          | none =>
            simp only
            intro p hp
            rcases List.mem_or_eq_of_mem_set hp with hp1 | he
            · exact h p hp1
            · rw [he]
              exact ⟨hg'sub, hb'sub⟩

theorem applyOp_inv (rp : RabinPairs) (op : RabinOp) (h : RabinInv rp) :
    RabinInv (applyOp rp op).1 := by
  cases op with
  | addPair g b => exact RabinPairs.add_inv rp g b h
  | removePair g b => exact RabinPairs.remove_inv rp g b h
  | addStates i g b => exact RabinPairs.add_states_inv rp i g b h

theorem applyOps_inv (ops : List RabinOp) (rp : RabinPairs)
    (h : RabinInv rp) : RabinInv (applyOps rp ops) := by
  induction ops generalizing rp with
  | nil => exact h
  | cons op rest ih => exact ih _ (applyOp_inv rp op h)

/-- C7: under any finite sequence of add / remove / add_states operations
every pair's good and bad sets remain subsets of the bound state universe,
and `add` with an element that was not declared a state fails with
`InvalidState` (naming such an element) while appending no pair. -/
theorem rabin_pairs_universe_invariant (rp : RabinPairs) :
    (∀ ops : List RabinOp, RabinInv rp → RabinInv (applyOps rp ops)) ∧
    (∀ good bad, (∃ x, (x ∈ good ∨ x ∈ bad) ∧ x ∉ rp.states) →
       ∃ y, rp.add good bad = (rp, some (.invalidState y)) ∧
            y ∉ rp.states) := by
  constructor
  · intro ops h
    exact applyOps_inv ops rp h
  · rintro good bad ⟨x, hx, hxu⟩
    unfold RabinPairs.add
    cases hg : subsetAddFrom rp.states [] good with
    | mk gset og =>
      cases og with
      | some y =>
        refine ⟨y, rfl, subsetAddFrom_some_invalid rp.states [] good y ?_⟩
        rw [hg]
      | none =>
        have hgood : ∀ z ∈ good, z ∈ rp.states :=
          (subsetAddFrom_none_iff rp.states [] good).mp (by rw [hg])
        cases hb : subsetAddFrom rp.states [] bad with
        | mk bset ob =>
          cases ob with
          | some y =>
            refine ⟨y, rfl, subsetAddFrom_some_invalid rp.states [] bad y ?_⟩
            rw [hb]
          | none =>
            have hbad : ∀ z ∈ bad, z ∈ rp.states :=
              (subsetAddFrom_none_iff rp.states [] bad).mp (by rw [hb])
            rcases hx with hx | hx
            · exact absurd (hgood x hx) hxu
            · exact absurd (hbad x hx) hxu

/-- Witness for C7 on a one-state universe. -/
theorem rabin_pairs_universe_invariant_witness :
    RabinInv (applyOps ⟨["a"], []⟩
      [RabinOp.addPair ["a"] [], RabinOp.addStates 0 ["a"] ["a"],
       RabinOp.removePair ["b"] []]) ∧
    (∃ y, RabinPairs.add ⟨["a"], []⟩ ["b"] [] =
       (⟨["a"], []⟩, some (.invalidState y)) ∧
       y ∉ (⟨["a"], []⟩ : RabinPairs).states) :=
  ⟨(rabin_pairs_universe_invariant ⟨["a"], []⟩).1 _
     (fun p hp => absurd hp (List.not_mem_nil p)),
   (rabin_pairs_universe_invariant ⟨["a"], []⟩).2 ["b"] []
     ⟨"b", Or.inl (by decide), by decide⟩⟩

theorem seteqStr_congr_right (a b b' : List String)
    (hb : ∀ x, x ∈ b ↔ x ∈ b') : seteqStr a b = seteqStr a b' := by
  by_cases h : seteqStr a b = true
  · rw [h]
    symm
    rw [seteqStr_iff]
    intro x
    exact ((seteqStr_iff a b).mp h x).trans (hb x)
  · have h' : ¬seteqStr a b' = true := by
      intro hc
      exact h ((seteqStr_iff a b).mpr
        (fun x => ((seteqStr_iff a b').mp hc x).trans (hb x).symm))
    rw [Bool.not_eq_true] at h h'
    rw [h, h']

theorem pairMatches_congr (p : List String × List String)
    (g g' b b' : List String) (hg : ∀ x, x ∈ g ↔ x ∈ g')
    (hb : ∀ x, x ∈ b ↔ x ∈ b') :
    pairMatches p g b = pairMatches p g' b' := by
  unfold pairMatches
  rw [seteqStr_congr_right p.1 g g' hg, seteqStr_congr_right p.2 b b' hb]

theorem removeFirst_none_iff (g b : List String)
    (l : List (List String × List String)) :
    removeFirst g b l = none ↔ ∀ p ∈ l, pairMatches p g b = false := by
  induction l with
  | nil => simp [removeFirst]
  | cons q rest ih =>
    simp only [removeFirst]
    by_cases hm : pairMatches q g b = true
    · rw [if_pos hm]
      constructor
      · intro hc
        cases hc
      · intro hall
        have hq := hall q (List.mem_cons_self q rest)
        rw [hm] at hq
        cases hq
    · rw [if_neg hm]
      rw [Bool.not_eq_true] at hm
      constructor
      · intro hc p hp
        rcases List.mem_cons.mp hp with he | hp'
        · rw [he]
          exact hm
        · cases hr : removeFirst g b rest with
          | none => exact ih.mp hr p hp'
          | some rest' => rw [hr] at hc; cases hc
      · intro hall
        cases hr : removeFirst g b rest with
        | none => rfl
        | some rest' =>
          have hn := ih.mpr (fun q' hq' => hall q' (List.mem_cons_of_mem q hq'))
          rw [hr] at hn
          cases hn

theorem removeFirst_some_exists (g b : List String)
    (l l' : List (List String × List String))
    (h : removeFirst g b l = some l') :
    ∃ p ∈ l, pairMatches p g b = true := by
  induction l generalizing l' with
  | nil => simp [removeFirst] at h
  | cons q rest ih =>
    simp only [removeFirst] at h
    by_cases hm : pairMatches q g b = true
    · exact ⟨q, List.mem_cons_self q rest, hm⟩
    · rw [if_neg hm] at h
      cases hr : removeFirst g b rest with
      | none => rw [hr] at h; cases h
      | some rest' =>
        obtain ⟨p, hp, hpm⟩ := ih rest' hr
        exact ⟨p, List.mem_cons_of_mem q hp, hpm⟩

theorem removeFirst_first_match (g b : List String)
    (l : List (List String × List String)) (j : Nat) (hj : j < l.length)
    (hmatch : pairMatches (l.getD j ([], [])) g b = true)
    (hbefore : ∀ i, i < j → pairMatches (l.getD i ([], [])) g b = false) :
    removeFirst g b l = some (l.take j ++ l.drop (j + 1)) := by
  induction l generalizing j with
  | nil => exact absurd hj (Nat.not_lt_zero j)
  | cons p rest ih =>
    cases j with
    | zero =>
      simp only [removeFirst]
      rw [List.getD_cons_zero] at hmatch
      rw [if_pos hmatch]
      simp
    | succ j' =>
      have hm0 : pairMatches p g b = false := by
        have h0 := hbefore 0 (Nat.succ_pos j')
        rwa [List.getD_cons_zero] at h0
      simp only [removeFirst]
      rw [if_neg (by rw [hm0]; exact Bool.false_ne_true)]
      rw [ih j' (Nat.lt_of_succ_lt_succ hj)
            (by rwa [List.getD_cons_succ] at hmatch)
            (fun i hi => by
              have hb1 := hbefore (i + 1) (Nat.succ_lt_succ hi)
              rwa [List.getD_cons_succ] at hb1)]
      simp

theorem getD_erase_shift {α : Type} (d : α) (l : List α) (j k : Nat)
    (hjk : j ≤ k) :
    (l.take j ++ l.drop (j + 1)).getD k d = l.getD (k + 1) d := by
  induction l generalizing j k with
  | nil => simp
  | cons a rest ih =>
    cases j with
    | zero => simp
    | succ j' =>
      cases k with
      | zero => exact absurd hjk (Nat.not_succ_le_zero j')
      | succ k' =>
        simp only [List.take_succ_cons, List.drop_succ_cons,
                   List.cons_append, List.getD_cons_succ]
        exact ih j' k' (Nat.le_of_succ_le_succ hjk)

theorem getD_erase_keep {α : Type} (d : α) (l : List α) (j k : Nat)
    (hkj : k < j) :
    (l.take j ++ l.drop (j + 1)).getD k d = l.getD k d := by
  induction l generalizing j k with
  | nil => simp
  | cons a rest ih =>
    cases j with
    | zero => exact absurd hkj (Nat.not_lt_zero k)
    | succ j' =>
      cases k with
      | zero =>
        simp only [List.take_succ_cons, List.drop_succ_cons,
                   List.cons_append, List.getD_cons_zero]
      | succ k' =>
        simp only [List.take_succ_cons, List.drop_succ_cons,
                   List.cons_append, List.getD_cons_succ]
        exact ih j' k' (Nat.lt_of_succ_lt_succ hkj)

/-- C8: `remove(good, bad)` deletes the first pair whose good and bad sets
equal the given ones by value, fails with `PairNotFound` exactly when no
pair matches, and removing the pair at position j shifts every later pair
down one index while earlier pairs keep their positions.  The good/bad
arguments range over state sets of the bound universe (elements outside
the universe are rejected by the `SubSet` validation before the lookup). -/
theorem rabin_remove_by_value (rp : RabinPairs) (good bad : List String)
    (hg : ∀ x ∈ good, x ∈ rp.states) (hb : ∀ x ∈ bad, x ∈ rp.states) :
    ((rp.remove good bad).2 = some .pairNotFound ↔
       ∀ p ∈ rp.pairs, pairMatches p good bad = false) ∧
    (∀ j, j < rp.pairs.length →
       pairMatches (rp.pairs.getD j ([], [])) good bad = true →
       (∀ i, i < j → pairMatches (rp.pairs.getD i ([], [])) good bad = false) →
       (rp.remove good bad).2 = none ∧
       (rp.remove good bad).1.pairs
         = rp.pairs.take j ++ rp.pairs.drop (j + 1) ∧
       (∀ k, j ≤ k → (rp.remove good bad).1.pairs.getD k ([], [])
          = rp.pairs.getD (k + 1) ([], [])) ∧
       (∀ k, k < j → (rp.remove good bad).1.pairs.getD k ([], [])
          = rp.pairs.getD k ([], []))) := by
  have hgn : (subsetAddFrom rp.states [] good).2 = none :=
    (subsetAddFrom_none_iff rp.states [] good).mpr hg
  have hbn : (subsetAddFrom rp.states [] bad).2 = none :=
    (subsetAddFrom_none_iff rp.states [] bad).mpr hb
  cases hgE : subsetAddFrom rp.states [] good with
  | mk gset og =>
    rw [hgE] at hgn
    cases og with
    | some x => cases hgn
    | none =>
      cases hbE : subsetAddFrom rp.states [] bad with
      | mk bset ob =>
        rw [hbE] at hbn
        cases ob with
        | some x => cases hbn
        | none =>
          have hgm : ∀ y, y ∈ gset ↔ y ∈ good := by
            intro y
            have h2 := subsetAddFrom_mem_iff rp.states [] good (by rw [hgE]) y
            rw [hgE] at h2
            simpa using h2
          have hbm : ∀ y, y ∈ bset ↔ y ∈ bad := by
            intro y
            have h2 := subsetAddFrom_mem_iff rp.states [] bad (by rw [hbE]) y
            rw [hbE] at h2
            simpa using h2
          have hmc : ∀ p, pairMatches p gset bset = pairMatches p good bad :=
            fun p => pairMatches_congr p gset good bset bad hgm hbm
          cases hr : removeFirst gset bset rp.pairs with
          | none =>
            have hre : rp.remove good bad = (rp, some .pairNotFound) := by
              unfold RabinPairs.remove
              rw [hgE]
              simp only
              rw [hbE]
              simp only
              rw [hr]
            constructor
            · rw [hre]
              constructor
              · intro _ p hp
                have hpm := (removeFirst_none_iff gset bset rp.pairs).mp hr p hp
                rw [hmc p] at hpm
                exact hpm
              · intro _
                rfl
            · intro j hj hmatch _
              exfalso
              have hpm := (removeFirst_none_iff gset bset rp.pairs).mp hr
                (rp.pairs.getD j ([], [])) (getD_mem_of_lt rp.pairs j ([], []) hj)
              rw [hmc _] at hpm
              rw [hmatch] at hpm
              cases hpm
          | some pairs' =>
            have hre : rp.remove good bad = ({ rp with pairs := pairs' }, none) := by
              unfold RabinPairs.remove
              rw [hgE]
              simp only
              rw [hbE]
              simp only
              rw [hr]
            constructor
            · rw [hre]
              constructor
              · intro hc
                cases hc
              · intro hall
                exfalso
                obtain ⟨p, hp, hpm⟩ :=
                  removeFirst_some_exists gset bset rp.pairs pairs' hr
                rw [hmc p] at hpm
                have hf := hall p hp
                rw [hpm] at hf
                cases hf
            · intro j hj hmatch hbefore
              have hmatch' : pairMatches (rp.pairs.getD j ([], [])) gset bset = true := by
                rw [hmc _]
                exact hmatch
              have hbefore' : ∀ i, i < j →
                  pairMatches (rp.pairs.getD i ([], [])) gset bset = false := by
                intro i hi
                rw [hmc _]
                exact hbefore i hi
              have hfm := removeFirst_first_match gset bset rp.pairs j hj
                hmatch' hbefore'
              rw [hr] at hfm
              injection hfm with hfm2
              rw [hre]
              refine ⟨rfl, hfm2, ?_, ?_⟩
              · intro k hk
                show pairs'.getD k ([], []) = rp.pairs.getD (k + 1) ([], [])
                rw [hfm2]
                exact getD_erase_shift ([], []) rp.pairs j k hk
              · intro k hk
                show pairs'.getD k ([], []) = rp.pairs.getD k ([], [])
                rw [hfm2]
                exact getD_erase_keep ([], []) rp.pairs j k hk

/-- Witness for C8: removing the first of two pairs by value succeeds and
shifts the second pair to index 0. -/
theorem rabin_remove_by_value_witness :
    (RabinPairs.remove ⟨["a", "b"], [(["a"], []), (["b"], [])]⟩ ["a"] []).2
        = none ∧
    (RabinPairs.remove ⟨["a", "b"], [(["a"], []), (["b"], [])]⟩ ["a"] []).1.pairs
        = [(["b"], [])] := by
  obtain ⟨h1, h2, h3, h4⟩ :=
    (rabin_remove_by_value ⟨["a", "b"], [(["a"], []), (["b"], [])]⟩ ["a"] []
        (by decide) (by decide)).2 0 (by decide) (by decide)
        (fun i hi => absurd hi (Nat.not_lt_zero i))
  refine ⟨h1, ?_⟩
  rw [h2]
  rfl

theorem getD_set_self {α : Type} (d v : α) (l : List α) (j : Nat)
    (hj : j < l.length) : (l.set j v).getD j d = v := by
  rw [List.getD_eq_getElem?_getD, List.getElem?_set_self hj, Option.getD_some]

theorem getD_set_ne {α : Type} (d v : α) (l : List α) (j k : Nat)
    (hne : j ≠ k) : (l.set j v).getD k d = l.getD k d := by
  rw [List.getD_eq_getElem?_getD, List.getElem?_set_ne hne,
      ← List.getD_eq_getElem?_getD]

/-- C9: `add_states(index, good, bad)` fails with the index-range error
exactly when the index is out of bounds for the current pair list (Python
indexing: valid positions are -len .. len-1, negative ones counting from
the end), never changes the number of pairs, and only ever extends the
good/bad sets: every prior member of every pair is still present
afterwards, whether the call succeeded or rejected an element. -/
theorem rabin_add_states_monotone (rp : RabinPairs) (i : Int)
    (good bad : List String) :
    ((rp.add_states i good bad).2 = some .indexRangeError ↔
       pyIndex rp.pairs i = none) ∧
    (rp.add_states i good bad).1.pairs.length = rp.pairs.length ∧
    (∀ k, (∀ x ∈ (rp.pairs.getD k ([], [])).1,
             x ∈ ((rp.add_states i good bad).1.pairs.getD k ([], [])).1) ∧
          (∀ x ∈ (rp.pairs.getD k ([], [])).2,
             x ∈ ((rp.add_states i good bad).1.pairs.getD k ([], [])).2)) := by
  cases hj : pyIndex rp.pairs i with
  | none =>
    have hre : rp.add_states i good bad = (rp, some .indexRangeError) := by
      unfold RabinPairs.add_states
      rw [hj]
    rw [hre]
    exact ⟨⟨fun _ => rfl, fun _ => rfl⟩, rfl,
           fun k => ⟨fun x hx => hx, fun x hx => hx⟩⟩
  | some j =>
    have hjlt := pyIndex_some_lt rp.pairs i j hj
    unfold RabinPairs.add_states
    rw [hj]
    simp only
    cases hgE : subsetAddFrom rp.states (rp.pairs.getD j ([], [])).1 good with
    | mk g' og =>
      have hgmono :=
        subsetAddFrom_mono rp.states (rp.pairs.getD j ([], [])).1 good
      rw [hgE] at hgmono
      have hmono1 : ∀ k,
          (∀ x ∈ (rp.pairs.getD k ([], [])).1,
             x ∈ ((rp.pairs.set j (g', (rp.pairs.getD j ([], [])).2)).getD
                    k ([], [])).1) ∧
          (∀ x ∈ (rp.pairs.getD k ([], [])).2,
             x ∈ ((rp.pairs.set j (g', (rp.pairs.getD j ([], [])).2)).getD
                    k ([], [])).2) := by
        intro k
        by_cases hk : j = k
        · subst hk
          rw [getD_set_self ([], []) _ rp.pairs j hjlt]
          exact ⟨fun x hx => hgmono x hx, fun x hx => hx⟩
        · rw [getD_set_ne ([], []) _ rp.pairs j k hk]
          exact ⟨fun x hx => hx, fun x hx => hx⟩
      cases og with
      | some x =>
        simp only
        refine ⟨⟨fun hc => ?_, fun hc => ?_⟩, List.length_set rp.pairs j _, hmono1⟩
        · injection hc with hc2
          exact AutomataError.noConfusion hc2
        · cases hc
      | none =>
        simp only
        cases hbE : subsetAddFrom rp.states (rp.pairs.getD j ([], [])).2 bad with
        | mk b' ob =>
          have hbmono :=
            subsetAddFrom_mono rp.states (rp.pairs.getD j ([], [])).2 bad
          rw [hbE] at hbmono
          have hmono2 : ∀ k,
              (∀ x ∈ (rp.pairs.getD k ([], [])).1,
                 x ∈ ((rp.pairs.set j (g', b')).getD k ([], [])).1) ∧
              (∀ x ∈ (rp.pairs.getD k ([], [])).2,
                 x ∈ ((rp.pairs.set j (g', b')).getD k ([], [])).2) := by
            intro k
            by_cases hk : j = k
            · subst hk
              rw [getD_set_self ([], []) _ rp.pairs j hjlt]
              exact ⟨fun x hx => hgmono x hx, fun x hx => hbmono x hx⟩
            · rw [getD_set_ne ([], []) _ rp.pairs j k hk]
              exact ⟨fun x hx => hx, fun x hx => hx⟩
          cases ob with
          | some x =>
            simp only
            refine ⟨⟨fun hc => ?_, fun hc => ?_⟩,
                    List.length_set rp.pairs j _, hmono2⟩
            · injection hc with hc2
              exact AutomataError.noConfusion hc2
            · cases hc
          | none =>
            simp only
            refine ⟨⟨fun hc => ?_, fun hc => ?_⟩,
                    List.length_set rp.pairs j _, hmono2⟩
            · cases hc
            · cases hc

/-- Witness for C9: an out-of-range index is rejected, and a successful
call keeps the prior good-side member of the extended pair. -/
theorem rabin_add_states_monotone_witness :
    (RabinPairs.add_states ⟨["a", "b"], [(["a"], [])]⟩ 2 ["b"] []).2
        = some .indexRangeError ∧
    "a" ∈ ((RabinPairs.add_states ⟨["a", "b"], [(["a"], [])]⟩ 0 ["b"] []).1.pairs.getD
             0 ([], [])).1 :=
  ⟨(rabin_add_states_monotone ⟨["a", "b"], [(["a"], [])]⟩ 2 ["b"] []).1.mpr
     (by decide),
   ((rabin_add_states_monotone ⟨["a", "b"], [(["a"], [])]⟩ 0 ["b"] []).2.2 0).1
     "a" (by decide)⟩
